import Mathlib

/-!
Shallow embedding of the FIRST/FOLLOW computation of `src/Grammar.{h,cpp}`.

The C++ code represents grammar symbols as `std::string` (the empty string
is the distinguished empty symbol ε), symbol sets as `std::set<std::string>`,
symbol sequences as `std::vector<std::string>`, rules as pairs
(head, body) and the rule set as `std::set<rule>`.

We embed symbols as `String`, symbol sets as `Finset String`, sequences as
`List String`, and the rule set as a `List` of rules in the iteration order
of the `std::set` (for concrete grammars below the lists are written in the
sorted order `std::set` iterates in; order-independence is proved
separately).

`Grammar::first` uses an inner recursive lambda `first_single` whose
recursion is unbounded in C++; `Grammar::follow` recurses on itself.  Both
are embedded with an explicit fuel parameter: `none` means the C++
computation has not finished within the given recursion budget.  A C++ run
terminates with result `s` iff the fueled function returns `some s` for
every sufficiently large fuel; an infinite recursion corresponds to the
fueled function returning `none` for every fuel.
-/

namespace FormalLang

abbrev Symbol := String
abbrev SymbolSet := Finset Symbol
abbrev SymbolSequence := List Symbol
abbrev Rule := Symbol × SymbolSequence

/-- The grammar components of `class Grammar` (Grammar.h lines 33-37).
`rules` keeps the iteration order of the C++ `std::set<rule>`. -/
structure Grammar where
  non_terminals : SymbolSet
  terminals : SymbolSet
  rules : List Rule
  start : Symbol

/-- Embeds `Grammar::has_terminal` (Grammar.h lines 50-53). -/
def Grammar.has_terminal (g : Grammar) (s : Symbol) : Bool :=
  s ∈ g.terminals

/-- Embeds `Grammar::has_non_terminal` (Grammar.h lines 56-59). -/
def Grammar.has_non_terminal (g : Grammar) (s : Symbol) : Bool :=
  s ∈ g.non_terminals

/-- The inner loop of `first_single` over the body of one rule
(Grammar.cpp lines 45-69).  `fs` is the recursive `first_single` call at
the remaining fuel; `sym` the symbol whose FIRST is being computed; `acc`
the accumulated `first_set`.  A body symbol equal to `sym` is skipped
(line 50); otherwise the FIRST of the body symbol minus ε is unioned in
(lines 55-59) and the scan stops when that FIRST had no ε (line 64).
Reaching the end of the body adds ε (line 69, `it == r.second.end()`). -/
def firstBody (fs : Symbol → Option SymbolSet) (sym : Symbol) :
    List Symbol → SymbolSet → Option SymbolSet
  | [], acc => some (insert "" acc)
  | b :: bs, acc =>
    if b = sym then firstBody fs sym bs acc
    else
      match fs b with
      | none => none
      | some sub =>
        if "" ∈ sub then firstBody fs sym bs (acc ∪ sub.erase "")
        else some (acc ∪ sub.erase "")

/-- The outer loop of `first_single` over the rule set
(Grammar.cpp lines 38-70): rules whose head is not `sym` are skipped
(line 42), the others have their body scanned by `firstBody`. -/
def firstRules (fs : Symbol → Option SymbolSet) (sym : Symbol) :
    List Rule → SymbolSet → Option SymbolSet
  | [], acc => some acc
  | r :: rs, acc =>
    if r.1 = sym then
      match firstBody fs sym r.2 acc with
      | none => none
      | some acc1 => firstRules fs sym rs acc1
    else firstRules fs sym rs acc

/-- Embeds `first_single` (Grammar.cpp lines 27-72), with fuel bounding the
recursion depth of the C++ lambda.  If the symbol is ε or a terminal it is
returned as a singleton (lines 33-35); otherwise every rule headed by it
is scanned (lines 38-70). -/
def firstSingle (g : Grammar) : Nat → Symbol → Option SymbolSet
  | 0, _ => none
  | fuel + 1, sym =>
    if sym = "" ∨ sym ∈ g.terminals then some {sym}
    else firstRules (firstSingle g fuel) sym g.rules ∅

/-- The loop of `Grammar::first` over the input sequence
(Grammar.cpp lines 79-85): like `firstBody` but without the
self-symbol skip; ε is added when the scan reaches the end (line 85). -/
def firstSeq (fs : Symbol → Option SymbolSet) :
    List Symbol → SymbolSet → Option SymbolSet
  | [], acc => some (insert "" acc)
  | s :: ss, acc =>
    match fs s with
    | none => none
    | some sub =>
      if "" ∈ sub then firstSeq fs ss (acc ∪ sub.erase "")
      else some (acc ∪ sub.erase "")

/-- Embeds `Grammar::first` (Grammar.cpp lines 22-87): the empty sequence returns
the empty set (line 24); otherwise the sequence is scanned with
`first_single` applied to each element. -/
def Grammar.first (g : Grammar) (fuel : Nat) (seq : SymbolSequence) :
    Option SymbolSet :=
  match seq with
  | [] => some ∅
  | _ => firstSeq (firstSingle g fuel) seq ∅

/-- Embeds `std::find` over the rule body followed by taking the subsequence
strictly after the found position (Grammar.cpp lines 110-119):
returns the suffix after the FIRST occurrence of `nt`, or `none` when `nt`
does not occur. -/
def splitAfterFirst (nt : Symbol) : List Symbol → Option (List Symbol)
  | [] => none
  | b :: bs => if b = nt then some bs else splitAfterFirst nt bs

/-- The loop of `Grammar::follow` over the rule set
(Grammar.cpp lines 98-134).  `fi` is `this->first` and `fl` the recursive
`this->follow`, both at the remaining fuel.  A rule whose head equals `nt`
is skipped (line 105), as is a rule whose body does not contain `nt`
(lines 110-111).  Otherwise `first(after)` minus ε is unioned in
(lines 116-124) and, when `after` is empty or its FIRST contained ε,
`follow` of the rule's head is unioned in (lines 130-133). -/
def followRules (fi : SymbolSequence → Option SymbolSet)
    (fl : Symbol → Option SymbolSet) (nt : Symbol) :
    List Rule → SymbolSet → Option SymbolSet
  | [], acc => some acc
  | r :: rs, acc =>
    if r.1 = nt then followRules fi fl nt rs acc
    else
      match splitAfterFirst nt r.2 with
      | none => followRules fi fl nt rs acc
      | some after =>
        match fi after with
        | none => none
        | some fa =>
          let acc1 := acc ∪ fa.erase ""
          if after = [] ∨ "" ∈ fa then
            match fl r.1 with
            | none => none
            | some sub => followRules fi fl nt rs (acc1 ∪ sub)
          else followRules fi fl nt rs acc1

/-- Embeds `Grammar::follow` (Grammar.cpp lines 90-136), with fuel bounding the
recursion depth.  The start symbol seeds the result with ε (line 95). -/
def Grammar.follow (g : Grammar) : Nat → Symbol → Option SymbolSet
  | 0, _ => none
  | fuel + 1, nt =>
    followRules (g.first fuel) (g.follow fuel) nt g.rules
      (if nt = g.start then {""} else ∅)

/-- The C++ `Grammar::first` call on `seq` terminates with result `s`:
some recursion budget (hence, by fuel monotonicity, every larger one)
suffices. -/
def FirstConvergesTo (g : Grammar) (seq : SymbolSequence)
    (s : SymbolSet) : Prop :=
  ∃ fuel, g.first fuel seq = some s

/-- The C++ `Grammar::first` call on `seq` recurses unboundedly: no finite
recursion budget completes it. -/
def FirstDiverges (g : Grammar) (seq : SymbolSequence) : Prop :=
  ∀ fuel, g.first fuel seq = none

/-- The C++ `Grammar::follow` call on `nt` terminates with result `s`. -/
def FollowConvergesTo (g : Grammar) (nt : Symbol) (s : SymbolSet) : Prop :=
  ∃ fuel, g.follow fuel nt = some s

/-- The C++ `Grammar::follow` call on `nt` recurses unboundedly. -/
def FollowDiverges (g : Grammar) (nt : Symbol) : Prop :=
  ∀ fuel, g.follow fuel nt = none

/-- Scenario 1 grammar of the spec: terminals {a, b}, non-terminals {S, A},
start S, rules S = A b, A = a, A = ε.  Rules are listed in the iteration
order of the C++ `std::set<rule>` (lexicographic). -/
def g1 : Grammar where
  non_terminals := {"S", "A"}
  terminals := {"a", "b"}
  rules := [("A", []), ("A", ["a"]), ("S", ["A", "b"])]
  start := "S"

/-- Scenario 2 grammar of the spec: terminals {a, b}, start S, rules
S = S a and S = b (direct left recursion). -/
def gLR : Grammar where
  non_terminals := {"S"}
  terminals := {"a", "b"}
  rules := [("S", ["S", "a"]), ("S", ["b"])]
  start := "S"

/-- The ε-cycle grammar of the spec's termination property:
rules S = A, A = S, A = ε. -/
def gCyc : Grammar where
  non_terminals := {"S", "A"}
  terminals := ∅
  rules := [("A", []), ("A", ["S"]), ("S", ["A"])]
  start := "S"

/-- A grammar whose single rule body contains the non-terminal A twice with
different suffixes: S = A a A b. -/
def gTwo : Grammar where
  non_terminals := {"S", "A"}
  terminals := {"a", "b"}
  rules := [("S", ["A", "a", "A", "b"])]
  start := "S"

/-- A grammar with a declared non-terminal N that heads no rule but occurs
in a rule body whose head lies on a FOLLOW cycle: rules A = B, A = N,
B = A. -/
def gZero : Grammar where
  non_terminals := {"A", "B", "N"}
  terminals := ∅
  rules := [("A", ["B"]), ("A", ["N"]), ("B", ["A"])]
  start := "A"

/-- Generic accumulator-threading scan over a rule list: each rule
contributes an optional set which is unioned into the accumulator, and a
`none` contribution aborts the whole scan.  Both `firstRules` and
`followRules` are instances of this shape (proved below); it is introduced
only to factor the order-independence and monotonicity arguments. -/
def scanRules (step : Rule → Option SymbolSet) :
    List Rule → SymbolSet → Option SymbolSet
  | [], acc => some acc
  | r :: rs, acc =>
    match step r with
    | none => none
    | some c => scanRules step rs (acc ∪ c)

/-- Contribution of a single rule to `firstRules`: nothing for a rule whose
head is not `sym`, otherwise the body scan started from the empty set. -/
def ruleFirst (fs : Symbol → Option SymbolSet) (sym : Symbol) (r : Rule) :
    Option SymbolSet :=
  if r.1 = sym then firstBody fs sym r.2 ∅ else some ∅

/-- Contribution of a single rule to `followRules`: nothing for a rule
whose head is `nt` or whose body does not contain `nt`; otherwise the
ε-free FIRST of the suffix after the first occurrence, together with the
FOLLOW of the head when the suffix is empty or its FIRST contained ε. -/
def ruleFollow (fi : SymbolSequence → Option SymbolSet)
    (fl : Symbol → Option SymbolSet) (nt : Symbol) (r : Rule) :
    Option SymbolSet :=
  if r.1 = nt then some ∅
  else
    match splitAfterFirst nt r.2 with
    | none => some ∅
    | some after =>
      match fi after with
      | none => none
      | some fa =>
        if after = [] ∨ "" ∈ fa then
          match fl r.1 with
          | none => none
          | some sub => some (fa.erase "" ∪ sub)
        else some (fa.erase "")

/-- Every symbol of the set is a declared terminal of `g` or the empty
symbol: the invariant the FIRST/FOLLOW results are shown to satisfy. -/
def Sane (g : Grammar) (s : SymbolSet) : Prop :=
  ∀ x ∈ s, x ∈ g.terminals ∨ x = ""

/-- The accumulator factors out of the rule-body scan. -/
lemma firstBody_acc (fs : Symbol → Option SymbolSet) (sym : Symbol) :
    ∀ (bs : List Symbol) (acc : SymbolSet),
      firstBody fs sym bs acc = (firstBody fs sym bs ∅).map (acc ∪ ·) := by
  intro bs
  induction bs with
  | nil =>
    intro acc
    simp only [firstBody, Option.map_some']
    rw [Finset.union_comm, Finset.insert_union, Finset.empty_union]
  | cons b bs ih =>
    intro acc
    by_cases hb : b = sym
    · simp only [firstBody, if_pos hb]
      exact ih acc
    · simp only [firstBody, if_neg hb]
      cases hfb : fs b with
      | none => simp
      | some sub =>
        by_cases he : "" ∈ sub
        · simp only [if_pos he]
          rw [ih, ih (∅ ∪ sub.erase "")]
          cases firstBody fs sym bs ∅ <;>
            simp [Finset.union_assoc]
        · simp [if_neg he]

/-- The accumulator factors out of the generic scan. -/
lemma scanRules_acc (step : Rule → Option SymbolSet) :
    ∀ (rs : List Rule) (acc : SymbolSet),
      scanRules step rs acc = (scanRules step rs ∅).map (acc ∪ ·) := by
  intro rs
  induction rs with
  | nil => intro acc; simp [scanRules]
  | cons r rs ih =>
    intro acc
    simp only [scanRules]
    cases step r with
    | none => simp
    | some c =>
      show scanRules step rs (acc ∪ c) =
        (scanRules step rs (∅ ∪ c)).map (acc ∪ ·)
      rw [ih, ih (∅ ∪ c)]
      cases scanRules step rs ∅ <;> simp [Finset.union_assoc]

/-- The outer loop of `first_single` is an instance of the generic scan
with the per-rule contribution `ruleFirst`. -/
lemma firstRules_eq_scan (fs : Symbol → Option SymbolSet) (sym : Symbol) :
    ∀ (rs : List Rule) (acc : SymbolSet),
      firstRules fs sym rs acc = scanRules (ruleFirst fs sym) rs acc := by
  intro rs
  induction rs with
  | nil => intro acc; rfl
  | cons r rs ih =>
    intro acc
    simp only [firstRules, scanRules, ruleFirst]
    by_cases hr : r.1 = sym
    · simp only [if_pos hr]
      rw [firstBody_acc]
      cases firstBody fs sym r.2 ∅ <;> simp [ih]
    · simp [if_neg hr, ih]

/-- The loop of `Grammar::follow` is an instance of the generic scan with
the per-rule contribution `ruleFollow`. -/
lemma followRules_eq_scan (fi : SymbolSequence → Option SymbolSet)
    (fl : Symbol → Option SymbolSet) (nt : Symbol) :
    ∀ (rs : List Rule) (acc : SymbolSet),
      followRules fi fl nt rs acc = scanRules (ruleFollow fi fl nt) rs acc := by
  intro rs
  induction rs with
  | nil => intro acc; rfl
  | cons r rs ih =>
    intro acc
    simp only [followRules, scanRules, ruleFollow]
    by_cases hr : r.1 = nt
    · simp [if_pos hr, ih]
    · simp only [if_neg hr]
      cases hsp : splitAfterFirst nt r.2 with
      | none => simp [hsp, ih]
      | some after =>
        cases hfi : fi after with
        | none => simp [hsp, hfi]
        | some fa =>
          by_cases hc : after = [] ∨ "" ∈ fa
          · simp only [hsp, hfi, if_pos hc]
            cases hfl : fl r.1 with
            | none => simp [hfl]
            | some sub => simp [hfl, ih, Finset.union_assoc]
          · simp [hsp, hfi, if_neg hc, ih]

/-- Permuting the rule list does not change the generic scan: a `none`
contribution aborts it under every order, and otherwise the result is the
union of all contributions. -/
lemma scanRules_perm (step : Rule → Option SymbolSet)
    {l l' : List Rule} (h : l.Perm l') :
    ∀ acc, scanRules step l acc = scanRules step l' acc := by
  induction h with
  | nil => intro acc; rfl
  | cons x _ ih =>
    intro acc
    simp only [scanRules]
    cases step x <;> simp [ih]
  | swap x y l =>
    intro acc
    simp only [scanRules]
    cases step x with
    | none => cases step y <;> rfl
    | some cx =>
      cases step y with
      | none => rfl
      | some cy =>
        show scanRules step l (acc ∪ cy ∪ cx) =
          scanRules step l (acc ∪ cx ∪ cy)
        rw [Finset.union_right_comm]
  | trans _ _ ih1 ih2 =>
    intro acc
    rw [ih1, ih2]

/-- Permuting the rule list does not change `first_single` at any fuel. -/
lemma firstSingle_perm {g : Grammar} {rules2 : List Rule}
    (h : g.rules.Perm rules2) :
    ∀ (f : Nat) (sym : Symbol),
      firstSingle g f sym = firstSingle { g with rules := rules2 } f sym := by
  intro f
  induction f with
  | zero => intro sym; rfl
  | succ f ih =>
    intro sym
    have hfs : firstSingle g f = firstSingle { g with rules := rules2 } f :=
      funext ih
    show (if sym = "" ∨ sym ∈ g.terminals then some {sym}
        else firstRules (firstSingle g f) sym g.rules ∅) =
      (if sym = "" ∨ sym ∈ g.terminals then some {sym}
        else firstRules (firstSingle { g with rules := rules2 } f) sym rules2 ∅)
    by_cases hb : sym = "" ∨ sym ∈ g.terminals
    · rw [if_pos hb, if_pos hb]
    · rw [if_neg hb, if_neg hb, ← hfs, firstRules_eq_scan, firstRules_eq_scan]
      exact scanRules_perm _ h _

/-- Permuting the rule list does not change `Grammar::first` at any fuel. -/
lemma first_perm {g : Grammar} {rules2 : List Rule}
    (h : g.rules.Perm rules2) :
    ∀ (f : Nat) (seq : SymbolSequence),
      g.first f seq = Grammar.first { g with rules := rules2 } f seq := by
  intro f seq
  cases seq with
  | nil => rfl
  | cons a ss =>
    show firstSeq (firstSingle g f) (a :: ss) ∅ =
      firstSeq (firstSingle { g with rules := rules2 } f) (a :: ss) ∅
    rw [funext (firstSingle_perm h f)]

/-- Permuting the rule list does not change `Grammar::follow` at any
fuel. -/
lemma follow_perm {g : Grammar} {rules2 : List Rule}
    (h : g.rules.Perm rules2) :
    ∀ (f : Nat) (nt : Symbol),
      g.follow f nt = Grammar.follow { g with rules := rules2 } f nt := by
  intro f
  induction f with
  | zero => intro nt; rfl
  | succ f ih =>
    intro nt
    have hfi : g.first f = Grammar.first { g with rules := rules2 } f :=
      funext (first_perm h f)
    have hfl : g.follow f = Grammar.follow { g with rules := rules2 } f :=
      funext ih
    show followRules (g.first f) (g.follow f) nt g.rules
        (if nt = g.start then {""} else ∅) =
      followRules (Grammar.first { g with rules := rules2 } f)
        (Grammar.follow { g with rules := rules2 } f) nt rules2
        (if nt = g.start then {""} else ∅)
    rw [← hfi, ← hfl, followRules_eq_scan, followRules_eq_scan]
    exact scanRules_perm _ h _

/-- Results of the body scan survive replacing the recursive call by one
that succeeds at least as often with the same values. -/
lemma firstBody_mono {fs fs' : Symbol → Option SymbolSet}
    (hfs : ∀ x s, fs x = some s → fs' x = some s) (sym : Symbol) :
    ∀ (bs : List Symbol) (acc s : SymbolSet),
      firstBody fs sym bs acc = some s → firstBody fs' sym bs acc = some s := by
  intro bs
  induction bs with
  | nil => intro acc s hb; exact hb
  | cons b bs ih =>
    intro acc s hb
    simp only [firstBody] at hb ⊢
    by_cases hbs : b = sym
    · rw [if_pos hbs] at hb ⊢
      exact ih _ _ hb
    · rw [if_neg hbs] at hb ⊢
      cases hf : fs b with
      | none => simp [hf] at hb
      | some sub =>
        simp only [hf] at hb
        simp only [hfs b sub hf]
        by_cases he : "" ∈ sub
        · simp only [if_pos he] at hb ⊢
          exact ih _ _ hb
        · simp only [if_neg he] at hb ⊢
          exact hb

/-- Results of the sequence scan survive strengthening the recursive
call. -/
lemma firstSeq_mono {fs fs' : Symbol → Option SymbolSet}
    (hfs : ∀ x s, fs x = some s → fs' x = some s) :
    ∀ (ss : List Symbol) (acc s : SymbolSet),
      firstSeq fs ss acc = some s → firstSeq fs' ss acc = some s := by
  intro ss
  induction ss with
  | nil => intro acc s hb; exact hb
  | cons a ss ih =>
    intro acc s hb
    simp only [firstSeq] at hb ⊢
    cases hf : fs a with
    | none => simp [hf] at hb
    | some sub =>
      simp only [hf] at hb
      simp only [hfs a sub hf]
      by_cases he : "" ∈ sub
      · simp only [if_pos he] at hb ⊢
        exact ih _ _ hb
      · simp only [if_neg he] at hb ⊢
        exact hb

/-- Per-rule FIRST contributions survive strengthening the recursive
call. -/
lemma ruleFirst_mono {fs fs' : Symbol → Option SymbolSet}
    (hfs : ∀ x s, fs x = some s → fs' x = some s) (sym : Symbol) :
    ∀ (r : Rule) (c : SymbolSet),
      ruleFirst fs sym r = some c → ruleFirst fs' sym r = some c := by
  intro r c h
  simp only [ruleFirst] at h ⊢
  by_cases hr : r.1 = sym
  · rw [if_pos hr] at h ⊢
    exact firstBody_mono hfs sym _ _ _ h
  · rw [if_neg hr] at h ⊢
    exact h

/-- Results of the generic scan survive strengthening the step
function. -/
lemma scanRules_mono {step step' : Rule → Option SymbolSet}
    (h : ∀ r c, step r = some c → step' r = some c) :
    ∀ (rs : List Rule) (acc s : SymbolSet),
      scanRules step rs acc = some s → scanRules step' rs acc = some s := by
  intro rs
  induction rs with
  | nil => intro acc s hs; exact hs
  | cons r rs ih =>
    intro acc s hs
    simp only [scanRules] at hs ⊢
    cases hc : step r with
    | none => simp [hc] at hs
    | some c =>
      simp only [hc] at hs
      simp only [h r c hc]
      exact ih _ _ hs

/-- Fuel monotonicity of `first_single`: a result obtained within some
recursion budget is unchanged by a larger budget. -/
lemma firstSingle_mono (g : Grammar) :
    ∀ (f : Nat) (sym : Symbol) (s : SymbolSet),
      firstSingle g f sym = some s → firstSingle g (f + 1) sym = some s := by
  intro f
  induction f with
  | zero => intro sym s h; exact Option.noConfusion h
  | succ f ih =>
    intro sym s h
    simp only [firstSingle] at h ⊢
    by_cases hb : sym = "" ∨ sym ∈ g.terminals
    · rwa [if_pos hb] at h ⊢
    · rw [if_neg hb] at h ⊢
      rw [firstRules_eq_scan] at h ⊢
      exact scanRules_mono (ruleFirst_mono ih sym) _ _ _ h

/-- Fuel monotonicity of `first_single`, for any pair of budgets. -/
lemma firstSingle_mono_le (g : Grammar) {f f' : Nat} (h : f ≤ f') :
    ∀ (sym : Symbol) (s : SymbolSet),
      firstSingle g f sym = some s → firstSingle g f' sym = some s := by
  induction h with
  | refl => intro sym s hs; exact hs
  | step _ ih => intro sym s hs; exact firstSingle_mono g _ _ _ (ih sym s hs)

/-- Fuel monotonicity of `Grammar::first`. -/
lemma first_mono (g : Grammar) :
    ∀ (f : Nat) (seq : SymbolSequence) (s : SymbolSet),
      g.first f seq = some s → g.first (f + 1) seq = some s := by
  intro f seq s h
  cases seq with
  | nil => exact h
  | cons a ss =>
    show firstSeq (firstSingle g (f + 1)) (a :: ss) ∅ = some s
    exact firstSeq_mono (firstSingle_mono g f) _ _ _ h

/-- Fuel monotonicity of `Grammar::first`, for any pair of budgets. -/
lemma first_mono_le (g : Grammar) {f f' : Nat} (h : f ≤ f') :
    ∀ (seq : SymbolSequence) (s : SymbolSet),
      g.first f seq = some s → g.first f' seq = some s := by
  induction h with
  | refl => intro seq s hs; exact hs
  | step _ ih => intro seq s hs; exact first_mono g _ _ _ (ih _ _ hs)

/-- Per-rule FOLLOW contributions survive strengthening the recursive
calls. -/
lemma ruleFollow_mono {fi fi' : SymbolSequence → Option SymbolSet}
    {fl fl' : Symbol → Option SymbolSet}
    (hfi : ∀ x s, fi x = some s → fi' x = some s)
    (hfl : ∀ x s, fl x = some s → fl' x = some s) (nt : Symbol) :
    ∀ (r : Rule) (c : SymbolSet),
      ruleFollow fi fl nt r = some c → ruleFollow fi' fl' nt r = some c := by
  intro r c h
  simp only [ruleFollow] at h ⊢
  by_cases hr : r.1 = nt
  · rw [if_pos hr] at h ⊢
    exact h
  · rw [if_neg hr] at h ⊢
    cases hsp : splitAfterFirst nt r.2 with
    | none =>
      simp only [hsp] at h ⊢
      exact h
    | some after =>
      simp only [hsp] at h ⊢
      cases hf : fi after with
      | none => simp [hf] at h
      | some fa =>
        simp only [hf] at h
        simp only [hfi after fa hf]
        by_cases hc : after = [] ∨ "" ∈ fa
        · simp only [if_pos hc] at h ⊢
          cases hl : fl r.1 with
          | none => simp [hl] at h
          | some sub =>
            simp only [hl] at h
            simp only [hfl r.1 sub hl]
            exact h
        · simp only [if_neg hc] at h ⊢
          exact h

/-- Fuel monotonicity of `Grammar::follow`. -/
lemma follow_mono (g : Grammar) :
    ∀ (f : Nat) (nt : Symbol) (s : SymbolSet),
      g.follow f nt = some s → g.follow (f + 1) nt = some s := by
  intro f
  induction f with
  | zero => intro nt s h; exact Option.noConfusion h
  | succ f ih =>
    intro nt s h
    simp only [Grammar.follow] at h ⊢
    rw [followRules_eq_scan] at h ⊢
    exact scanRules_mono (ruleFollow_mono (first_mono g f) ih nt) _ _ _ h

/-- Fuel monotonicity of `Grammar::follow`, for any pair of budgets. -/
lemma follow_mono_le (g : Grammar) {f f' : Nat} (h : f ≤ f') :
    ∀ (nt : Symbol) (s : SymbolSet),
      g.follow f nt = some s → g.follow f' nt = some s := by
  induction h with
  | refl => intro nt s hs; exact hs
  | step _ ih => intro nt s hs; exact follow_mono g _ _ _ (ih _ _ hs)

/-- A terminating `first` computation has a unique result. -/
lemma first_converges_unique {g : Grammar} {seq : SymbolSequence}
    {s s' : SymbolSet} (h1 : FirstConvergesTo g seq s)
    (h2 : FirstConvergesTo g seq s') : s = s' := by
  obtain ⟨f1, e1⟩ := h1
  obtain ⟨f2, e2⟩ := h2
  have m1 := first_mono_le g (Nat.le_max_left f1 f2) _ _ e1
  have m2 := first_mono_le g (Nat.le_max_right f1 f2) _ _ e2
  rw [m1] at m2
  exact Option.some.inj m2

/-- A terminating `follow` computation has a unique result. -/
lemma follow_converges_unique {g : Grammar} {nt : Symbol}
    {s s' : SymbolSet} (h1 : FollowConvergesTo g nt s)
    (h2 : FollowConvergesTo g nt s') : s = s' := by
  obtain ⟨f1, e1⟩ := h1
  obtain ⟨f2, e2⟩ := h2
  have m1 := follow_mono_le g (Nat.le_max_left f1 f2) _ _ e1
  have m2 := follow_mono_le g (Nat.le_max_right f1 f2) _ _ e2
  rw [m1] at m2
  exact Option.some.inj m2

/-- On the ε-cycle grammar the C++ `first_single` recursion
S → A → S → … exhausts every fuel: mutual divergence of the two
non-terminals. -/
lemma gCyc_firstSingle_none :
    ∀ f, firstSingle gCyc f "S" = none ∧ firstSingle gCyc f "A" = none := by
  intro f
  induction f with
  | zero => exact ⟨rfl, rfl⟩
  | succ f ih =>
    obtain ⟨hS, hA⟩ := ih
    constructor
    · simp only [gCyc] at hA
      simp [firstSingle, firstRules, firstBody, gCyc, hA]
    · simp only [gCyc] at hS
      simp [firstSingle, firstRules, firstBody, gCyc, hS]

/-- On the ε-cycle grammar the C++ `follow` recursion
S → A → S → … exhausts every fuel. -/
lemma gCyc_follow_none :
    ∀ f, gCyc.follow f "S" = none ∧ gCyc.follow f "A" = none := by
  intro f
  induction f with
  | zero => exact ⟨rfl, rfl⟩
  | succ f ih =>
    obtain ⟨hS, hA⟩ := ih
    constructor
    · simp only [gCyc] at hA
      simp [Grammar.follow, followRules, splitAfterFirst, Grammar.first,
        gCyc, hA]
    · simp only [gCyc] at hS
      simp [Grammar.follow, followRules, splitAfterFirst, Grammar.first,
        gCyc, hS]

/-- On `gZero` the C++ `follow` recursion A → B → A → … exhausts every
fuel. -/
lemma gZero_follow_none :
    ∀ f, gZero.follow f "A" = none ∧ gZero.follow f "B" = none := by
  intro f
  induction f with
  | zero => exact ⟨rfl, rfl⟩
  | succ f ih =>
    obtain ⟨hA, hB⟩ := ih
    constructor
    · simp only [gZero] at hB
      simp [Grammar.follow, followRules, splitAfterFirst, Grammar.first,
        gZero, hB]
    · simp only [gZero] at hA
      simp [Grammar.follow, followRules, splitAfterFirst, Grammar.first,
        gZero, hA]

/-- A symbol that occurs nowhere in a body list is not found by the
`std::find` embedding. -/
lemma splitAfterFirst_of_not_mem {nt : Symbol} :
    ∀ {bs : List Symbol}, nt ∉ bs → splitAfterFirst nt bs = none := by
  intro bs
  induction bs with
  | nil => intro _; rfl
  | cons b bs ih =>
    intro h
    simp only [List.mem_cons, not_or] at h
    simp only [splitAfterFirst]
    rw [if_neg (fun e => h.1 e.symm)]
    exact ih h.2

/-- When no rule of the list is headed by `sym`, the rule scan of
`first_single` returns the accumulator unchanged. -/
lemma firstRules_no_head (fs : Symbol → Option SymbolSet) (sym : Symbol) :
    ∀ (rs : List Rule) (acc : SymbolSet), (∀ r ∈ rs, r.1 ≠ sym) →
      firstRules fs sym rs acc = some acc := by
  intro rs
  induction rs with
  | nil => intro acc _; rfl
  | cons r rs ih =>
    intro acc h
    simp only [firstRules]
    rw [if_neg (h r (List.mem_cons_self r rs))]
    exact ih acc fun x hx => h x (List.mem_cons_of_mem r hx)

/-- When `nt` occurs in no body of the list, the rule scan of `follow`
returns the accumulator unchanged. -/
lemma followRules_no_occ (fi : SymbolSequence → Option SymbolSet)
    (fl : Symbol → Option SymbolSet) (nt : Symbol) :
    ∀ (rs : List Rule) (acc : SymbolSet), (∀ r ∈ rs, nt ∉ r.2) →
      followRules fi fl nt rs acc = some acc := by
  intro rs
  induction rs with
  | nil => intro acc _; rfl
  | cons r rs ih =>
    intro acc h
    have hrest : ∀ x ∈ rs, nt ∉ x.2 :=
      fun x hx => h x (List.mem_cons_of_mem r hx)
    simp only [followRules]
    by_cases hr : r.1 = nt
    · rw [if_pos hr]
      exact ih acc hrest
    · rw [if_neg hr,
        splitAfterFirst_of_not_mem (h r (List.mem_cons_self r rs))]
      exact ih acc hrest

/-- Unions preserve the terminal-or-ε invariant. -/
lemma sane_union {g : Grammar} {s t : SymbolSet} (hs : Sane g s)
    (ht : Sane g t) : Sane g (s ∪ t) := by
  intro x hx
  rcases Finset.mem_union.mp hx with h | h
  · exact hs x h
  · exact ht x h

/-- Inserting ε preserves the terminal-or-ε invariant. -/
lemma sane_insert_empty {g : Grammar} {s : SymbolSet} (hs : Sane g s) :
    Sane g (insert "" s) := by
  intro x hx
  rcases Finset.mem_insert.mp hx with h | h
  · exact Or.inr h
  · exact hs x h

/-- Erasure preserves the terminal-or-ε invariant. -/
lemma sane_erase {g : Grammar} {s : SymbolSet} (hs : Sane g s)
    (a : Symbol) : Sane g (s.erase a) :=
  fun x hx => hs x (Finset.mem_of_mem_erase hx)

/-- The empty set satisfies the terminal-or-ε invariant. -/
lemma sane_empty (g : Grammar) : Sane g ∅ :=
  fun x hx => absurd hx (Finset.not_mem_empty x)

/-- The body scan of `first_single` preserves the terminal-or-ε
invariant. -/
lemma firstBody_sane {g : Grammar} {fs : Symbol → Option SymbolSet}
    (hfs : ∀ b sub, fs b = some sub → Sane g sub) (sym : Symbol) :
    ∀ (bs : List Symbol) (acc s : SymbolSet), Sane g acc →
      firstBody fs sym bs acc = some s → Sane g s := by
  intro bs
  induction bs with
  | nil =>
    intro acc s hacc hb
    exact (Option.some.inj hb) ▸ sane_insert_empty hacc
  | cons b bs ih =>
    intro acc s hacc hb
    simp only [firstBody] at hb
    by_cases hbs : b = sym
    · rw [if_pos hbs] at hb
      exact ih _ _ hacc hb
    · rw [if_neg hbs] at hb
      cases hf : fs b with
      | none => simp [hf] at hb
      | some sub =>
        simp only [hf] at hb
        have hsub := hfs b sub hf
        by_cases he : "" ∈ sub
        · simp only [if_pos he] at hb
          exact ih _ _ (sane_union hacc (sane_erase hsub "")) hb
        · simp only [if_neg he] at hb
          exact (Option.some.inj hb) ▸ sane_union hacc (sane_erase hsub "")

/-- The sequence scan of `Grammar::first` preserves the terminal-or-ε
invariant. -/
lemma firstSeq_sane {g : Grammar} {fs : Symbol → Option SymbolSet}
    (hfs : ∀ b sub, fs b = some sub → Sane g sub) :
    ∀ (ss : List Symbol) (acc s : SymbolSet), Sane g acc →
      firstSeq fs ss acc = some s → Sane g s := by
  intro ss
  induction ss with
  | nil =>
    intro acc s hacc hb
    exact (Option.some.inj hb) ▸ sane_insert_empty hacc
  | cons a ss ih =>
    intro acc s hacc hb
    simp only [firstSeq] at hb
    cases hf : fs a with
    | none => simp [hf] at hb
    | some sub =>
      simp only [hf] at hb
      have hsub := hfs a sub hf
      by_cases he : "" ∈ sub
      · simp only [if_pos he] at hb
        exact ih _ _ (sane_union hacc (sane_erase hsub "")) hb
      · simp only [if_neg he] at hb
        exact (Option.some.inj hb) ▸ sane_union hacc (sane_erase hsub "")

/-- The rule scan of `first_single` preserves the terminal-or-ε
invariant. -/
lemma firstRules_sane {g : Grammar} {fs : Symbol → Option SymbolSet}
    (hfs : ∀ b sub, fs b = some sub → Sane g sub) (sym : Symbol) :
    ∀ (rs : List Rule) (acc s : SymbolSet), Sane g acc →
      firstRules fs sym rs acc = some s → Sane g s := by
  intro rs
  induction rs with
  | nil =>
    intro acc s hacc hb
    exact (Option.some.inj hb) ▸ hacc
  | cons r rs ih =>
    intro acc s hacc hb
    simp only [firstRules] at hb
    by_cases hr : r.1 = sym
    · rw [if_pos hr] at hb
      cases hfb : firstBody fs sym r.2 acc with
      | none => simp [hfb] at hb
      | some acc1 =>
        simp only [hfb] at hb
        exact ih _ _ (firstBody_sane hfs sym _ _ _ hacc hfb) hb
    · rw [if_neg hr] at hb
      exact ih _ _ hacc hb

/-- Every set computed by `first_single` holds only declared terminals
and ε. -/
lemma firstSingle_sane (g : Grammar) :
    ∀ (f : Nat) (sym : Symbol) (s : SymbolSet),
      firstSingle g f sym = some s → Sane g s := by
  intro f
  induction f with
  | zero => intro sym s h; exact Option.noConfusion h
  | succ f ih =>
    intro sym s h
    simp only [firstSingle] at h
    by_cases hb : sym = "" ∨ sym ∈ g.terminals
    · rw [if_pos hb] at h
      obtain rfl : ({sym} : SymbolSet) = s := Option.some.inj h
      intro x hx
      rw [Finset.mem_singleton] at hx
      subst hx
      rcases hb with hb | hb
      · exact Or.inr hb
      · exact Or.inl hb
    · rw [if_neg hb] at h
      exact firstRules_sane ih sym _ _ _ (sane_empty g) h

/-- Every set computed by `Grammar::first` holds only declared terminals
and ε. -/
lemma first_sane (g : Grammar) :
    ∀ (f : Nat) (seq : SymbolSequence) (s : SymbolSet),
      g.first f seq = some s → Sane g s := by
  intro f seq s h
  cases seq with
  | nil => exact (Option.some.inj h) ▸ sane_empty g
  | cons a ss => exact firstSeq_sane (firstSingle_sane g f) _ _ _ (sane_empty g) h

/-- The rule scan of `follow` preserves the terminal-or-ε invariant. -/
lemma followRules_sane {g : Grammar}
    {fi : SymbolSequence → Option SymbolSet}
    {fl : Symbol → Option SymbolSet}
    (hfi : ∀ x fa, fi x = some fa → Sane g fa)
    (hfl : ∀ x sub, fl x = some sub → Sane g sub) (nt : Symbol) :
    ∀ (rs : List Rule) (acc s : SymbolSet), Sane g acc →
      followRules fi fl nt rs acc = some s → Sane g s := by
  intro rs
  induction rs with
  | nil =>
    intro acc s hacc hb
    exact (Option.some.inj hb) ▸ hacc
  | cons r rs ih =>
    intro acc s hacc hb
    simp only [followRules] at hb
    by_cases hr : r.1 = nt
    · rw [if_pos hr] at hb
      exact ih _ _ hacc hb
    · rw [if_neg hr] at hb
      cases hsp : splitAfterFirst nt r.2 with
      | none =>
        simp only [hsp] at hb
        exact ih _ _ hacc hb
      | some after =>
        simp only [hsp] at hb
        cases hf : fi after with
        | none => simp [hf] at hb
        | some fa =>
          simp only [hf] at hb
          have hfa := hfi after fa hf
          by_cases hc : after = [] ∨ "" ∈ fa
          · simp only [if_pos hc] at hb
            cases hl : fl r.1 with
            | none => simp [hl] at hb
            | some sub =>
              simp only [hl] at hb
              exact ih _ _
                (sane_union (sane_union hacc (sane_erase hfa ""))
                  (hfl r.1 sub hl)) hb
          · simp only [if_neg hc] at hb
            exact ih _ _ (sane_union hacc (sane_erase hfa "")) hb

/-- Every set computed by `Grammar::follow` holds only declared terminals
and ε. -/
lemma follow_sane (g : Grammar) :
    ∀ (f : Nat) (nt : Symbol) (s : SymbolSet),
      g.follow f nt = some s → Sane g s := by
  intro f
  induction f with
  | zero => intro nt s h; exact Option.noConfusion h
  | succ f ih =>
    intro nt s h
    simp only [Grammar.follow] at h
    refine followRules_sane (first_sane g f) ih nt _ _ _ ?_ h
    by_cases hs : nt = g.start
    · rw [if_pos hs]
      exact sane_insert_empty (sane_empty g)
    · rw [if_neg hs]
      exact sane_empty g

/-- C1, counterexample: on the grammar with rules S = A, A = S, A = ε the
code's `first(["S"])` and `follow("S")` recurse unboundedly — they return
no result under any recursion budget, contradicting the claim that both
terminate on every grammar. -/
theorem C1_cycle_divergence :
    FirstDiverges gCyc ["S"] ∧ FollowDiverges gCyc "S" := by
  constructor
  · intro fuel
    show firstSeq (firstSingle gCyc fuel) ["S"] ∅ = none
    simp [firstSeq, (gCyc_firstSingle_none fuel).1]
  · intro fuel
    exact (gCyc_follow_none fuel).1

/-- C1 (amended): whenever `first` or `follow` terminates within some
recursion budget, the result is a stable fixed point — every larger budget
returns the same set; and on the direct left-recursive grammar S = S a,
S = b (whose self-references the code explicitly guards) both terminate.
Termination does not extend to indirect ε-cycles (see the
counterexample). -/
theorem C1_termination_fixed_point :
    (∀ (g : Grammar) (f f' : Nat) (seq : SymbolSequence) (s : SymbolSet),
        f ≤ f' → g.first f seq = some s → g.first f' seq = some s) ∧
    (∀ (g : Grammar) (f f' : Nat) (nt : Symbol) (s : SymbolSet),
        f ≤ f' → g.follow f nt = some s → g.follow f' nt = some s) ∧
    FirstConvergesTo gLR ["S"] (insert "a" {"b"}) ∧
    FollowConvergesTo gLR "S" {""} :=
  ⟨fun g _ _ seq s h e => first_mono_le g h seq s e,
    fun g _ _ nt s h e => follow_mono_le g h nt s e,
    ⟨2, by decide⟩, ⟨1, by decide⟩⟩

/-- Witness for C1: fuel monotonicity applied at the concrete grammar
`gLR`, budgets 1 ≤ 2, on `follow("S")`. -/
theorem C1_termination_fixed_point_witness :
    1 ≤ 2 ∧ gLR.follow 1 "S" = some {""} ∧ gLR.follow 2 "S" = some {""} :=
  ⟨by decide, by decide,
    C1_termination_fixed_point.2.1 gLR 1 2 "S" {""} (by decide) (by decide)⟩

/-- C2, counterexample: for the grammar S = S a, S = b the code computes
`follow("S") = {ε}`, not `{a, ε}` — line 105 of Grammar.cpp skips every
rule whose head equals the argument, so the occurrence of S in the body of
S = S a contributes nothing. -/
theorem C2_counterexample :
    FollowConvergesTo gLR "S" {""} ∧
    ¬ FollowConvergesTo gLR "S" (insert "a" {""}) := by
  have h1 : FollowConvergesTo gLR "S" {""} := ⟨1, by decide⟩
  refine ⟨h1, fun h2 => ?_⟩
  exact absurd (follow_converges_unique h1 h2) (by decide)

/-- C2 (amended): when computing `follow(nt)`, every rule whose head
equals `nt` is skipped outright, so occurrences of `nt` inside bodies of
its own rules are never scanned; consequently for the grammar with rules
S = S a and S = b, `follow(S) = {ε}` (only the start-symbol seed). -/
theorem C2_follow_skips_own_head_rules :
    (∀ (fi : SymbolSequence → Option SymbolSet)
        (fl : Symbol → Option SymbolSet) (nt : Symbol)
        (body : SymbolSequence) (rs : List Rule) (acc : SymbolSet),
        followRules fi fl nt ((nt, body) :: rs) acc =
          followRules fi fl nt rs acc) ∧
    FollowConvergesTo gLR "S" {""} := by
  refine ⟨fun fi fl nt body rs acc => ?_, ⟨1, by decide⟩⟩
  simp [followRules]

/-- C3, counterexample: for the grammar S = S a, S = b the code computes
`first(["S"]) = {a, b}`, not `{b}` — the guard at Grammar.cpp line 50
skips the left-recursive S in the body S a and the scan then reaches the
terminal `a`, whose FIRST is unioned in. -/
theorem C3_counterexample :
    FirstConvergesTo gLR ["S"] (insert "a" {"b"}) ∧
    ¬ FirstConvergesTo gLR ["S"] {"b"} := by
  have h1 : FirstConvergesTo gLR ["S"] (insert "a" {"b"}) := ⟨2, by decide⟩
  refine ⟨h1, fun h2 => ?_⟩
  exact absurd (first_converges_unique h1 h2) (by decide)

/-- C3 (amended): for the grammar with terminals {a, b}, start S and rules
S = S a, S = b, the code's `first(["S"])` terminates and equals {a, b}: it
does contain the terminal `a` (an artifact of the self-symbol skip) and
does not contain the empty symbol. -/
theorem C3_first_of_left_recursive :
    FirstConvergesTo gLR ["S"] (insert "a" {"b"}) ∧
    "a" ∈ (insert "a" {"b"} : SymbolSet) ∧
    "" ∉ (insert "a" {"b"} : SymbolSet) :=
  ⟨⟨2, by decide⟩, by decide, by decide⟩

/-- C4, counterexample: for the grammar with the single rule S = A a A b
the code computes `follow(A) = {a}` — only the first occurrence of A is
found (std::find); the claim demands the second occurrence contribute
`first(["b"]) = {b}` as well, yet no terminating result contains `b`. -/
theorem C4_counterexample :
    FollowConvergesTo gTwo "A" {"a"} ∧
    ¬ (∃ s, FollowConvergesTo gTwo "A" s ∧ "b" ∈ s) := by
  have h1 : FollowConvergesTo gTwo "A" {"a"} := ⟨2, by decide⟩
  refine ⟨h1, fun h2 => ?_⟩
  obtain ⟨s, hs, hb⟩ := h2
  obtain rfl := follow_converges_unique h1 hs
  exact absurd hb (by decide)

/-- C4 (amended): `follow(nt)` takes a contribution only from the FIRST
occurrence of `nt` in each rule body (rules headed by `nt` are skipped):
replacing a body by `nt` followed by the suffix after its first occurrence
leaves the scan unchanged, and for the grammar S = A a A b the result is
`follow(A) = {a}`. -/
theorem C4_only_first_occurrence :
    (∀ (fi : SymbolSequence → Option SymbolSet)
        (fl : Symbol → Option SymbolSet) (nt hd : Symbol)
        (body after : SymbolSequence) (rs : List Rule) (acc : SymbolSet),
        hd ≠ nt → splitAfterFirst nt body = some after →
        followRules fi fl nt ((hd, body) :: rs) acc =
          followRules fi fl nt ((hd, nt :: after) :: rs) acc) ∧
    FollowConvergesTo gTwo "A" {"a"} := by
  refine ⟨fun fi fl nt hd body after rs acc hne hsp => ?_, ⟨2, by decide⟩⟩
  have e1 : splitAfterFirst nt (nt :: after) = some after := by
    simp [splitAfterFirst]
  simp [followRules, hne, hsp, e1]

/-- Witness for C4: the first-occurrence suffix replacement applied at the
concrete rule S = A a A b. -/
theorem C4_only_first_occurrence_witness :
    ("S" : Symbol) ≠ "A" ∧
    splitAfterFirst "A" ["A", "a", "A", "b"] = some ["a", "A", "b"] ∧
    followRules (fun _ => some ∅) (fun _ => some ∅) "A"
        [("S", ["A", "a", "A", "b"])] ∅ =
      followRules (fun _ => some ∅) (fun _ => some ∅) "A"
        [("S", "A" :: ["a", "A", "b"])] ∅ :=
  ⟨by decide, by decide,
    C4_only_first_occurrence.1 (fun _ => some ∅) (fun _ => some ∅) "A" "S"
      ["A", "a", "A", "b"] ["a", "A", "b"] [] ∅ (by decide) (by decide)⟩

/-- C5: scenario 1 of the spec — for the grammar with terminals {a, b},
non-terminals {S, A}, start S and rules S = A b, A = a, A = ε the code
terminates with `first([S]) = {a, b}`, `first([A]) = {a, ε}`,
`follow(A) = {b}` and `follow(S) = {ε}`. -/
theorem C5_scenario1 :
    FirstConvergesTo g1 ["S"] (insert "a" {"b"}) ∧
    FirstConvergesTo g1 ["A"] (insert "" {"a"}) ∧
    FollowConvergesTo g1 "A" {"b"} ∧
    FollowConvergesTo g1 "S" {""} :=
  ⟨⟨3, by decide⟩, ⟨2, by decide⟩, ⟨2, by decide⟩, ⟨1, by decide⟩⟩

/-- C6: permuting the iteration order of the rule set changes neither
`first` nor `follow`, at any recursion budget, for any input — the
computation is a union over per-rule contributions and a failure to
terminate aborts every order alike. -/
theorem C6_order_independence :
    ∀ (g : Grammar) (rules2 : List Rule), g.rules.Perm rules2 →
      (∀ (fuel : Nat) (seq : SymbolSequence),
          g.first fuel seq =
            Grammar.first { g with rules := rules2 } fuel seq) ∧
      (∀ (fuel : Nat) (nt : Symbol),
          g.follow fuel nt =
            Grammar.follow { g with rules := rules2 } fuel nt) :=
  fun _ _ h =>
    ⟨fun fuel seq => first_perm h fuel seq,
      fun fuel nt => follow_perm h fuel nt⟩

/-- Witness for C6: swapping the first two rules of the scenario 1
grammar leaves `first(["S"])` unchanged. -/
theorem C6_order_independence_witness :
    g1.rules.Perm [("A", ["a"]), ("A", []), ("S", ["A", "b"])] ∧
    g1.first 3 ["S"] =
      Grammar.first
        { g1 with rules := [("A", ["a"]), ("A", []), ("S", ["A", "b"])] }
        3 ["S"] :=
  ⟨by decide,
    (C6_order_independence g1 [("A", ["a"]), ("A", []), ("S", ["A", "b"])]
      (by decide)).1 3 ["S"]⟩

/-- C7, counterexample: `gZero` declares the non-terminal N with zero
rules (N heads no rule), yet `follow("N")` does not terminate — N occurs
in the body of A = N and the recursive `follow("A")` cycles through
A = B, B = A forever.  This contradicts the claim that queries involving
a zero-rule non-terminal always terminate. -/
theorem C7_counterexample :
    "N" ∈ gZero.non_terminals ∧ (∀ r ∈ gZero.rules, r.1 ≠ "N") ∧
    FollowDiverges gZero "N" := by
  refine ⟨by decide, by decide, fun fuel => ?_⟩
  cases fuel with
  | zero => rfl
  | succ f =>
    have hA := (gZero_follow_none f).1
    simp only [gZero] at hA
    simp [Grammar.follow, followRules, splitAfterFirst, Grammar.first,
      gZero, hA]

/-- C7 (amended): `follow` of a symbol absent from the grammar (not the
start symbol, heading no rule, occurring in no body) terminates at once
with the empty set, and `first` of a single symbol that is neither ε, nor
a terminal, nor the head of any rule terminates with the empty set; but
`follow` of a zero-rule non-terminal that does occur in a body may
diverge (see the counterexample). -/
theorem C7_absent_symbol :
    (∀ (g : Grammar) (nt : Symbol) (fuel : Nat), nt ≠ g.start →
        (∀ r ∈ g.rules, r.1 ≠ nt ∧ nt ∉ r.2) →
        g.follow (fuel + 1) nt = some ∅) ∧
    (∀ (g : Grammar) (nt : Symbol) (fuel : Nat), nt ≠ "" →
        nt ∉ g.terminals → (∀ r ∈ g.rules, r.1 ≠ nt) →
        g.first (fuel + 1) [nt] = some ∅) := by
  constructor
  · intro g nt fuel hst h
    show followRules (g.first fuel) (g.follow fuel) nt g.rules
        (if nt = g.start then {""} else ∅) = some ∅
    rw [if_neg hst]
    exact followRules_no_occ _ _ nt g.rules ∅ fun r hr => (h r hr).2
  · intro g nt fuel hne ht h
    show firstSeq (firstSingle g (fuel + 1)) [nt] ∅ = some ∅
    have hcond : ¬ (nt = "" ∨ nt ∈ g.terminals) := by
      rintro (h1 | h2)
      · exact hne h1
      · exact ht h2
    have hsingle : firstSingle g (fuel + 1) nt = some ∅ := by
      show (if nt = "" ∨ nt ∈ g.terminals then some {nt}
        else firstRules (firstSingle g fuel) nt g.rules ∅) = some ∅
      rw [if_neg hcond]
      exact firstRules_no_head _ nt g.rules ∅ h
    simp [firstSeq, hsingle]

/-- Witness for C7: the absent symbol Z on the scenario 1 grammar. -/
theorem C7_absent_symbol_witness :
    (("Z" : Symbol) ≠ g1.start ∧
      (∀ r ∈ g1.rules, r.1 ≠ "Z" ∧ "Z" ∉ r.2) ∧
      g1.follow 1 "Z" = some ∅) ∧
    (("Z" : Symbol) ≠ "" ∧ "Z" ∉ g1.terminals ∧
      (∀ r ∈ g1.rules, r.1 ≠ "Z") ∧
      g1.first 1 ["Z"] = some ∅) :=
  ⟨⟨by decide, by decide,
      C7_absent_symbol.1 g1 "Z" 0 (by decide) (by decide)⟩,
    ⟨by decide, by decide, by decide,
      C7_absent_symbol.2 g1 "Z" 0 (by decide) (by decide) (by decide)⟩⟩

/-- C8: `first` of the explicitly empty symbol sequence returns the empty
set, not {ε}, for every grammar and recursion budget (Grammar.cpp
line 24). -/
theorem C8_first_empty_sequence :
    ∀ (g : Grammar) (fuel : Nat), g.first fuel [] = some ∅ :=
  fun _ _ => rfl

/-- C9: for every declared terminal s (a real symbol, distinct from the
reserved empty symbol per the data-model invariant) and every sequence of
declared terminals starting with s, `first` terminates with exactly {s},
which does not contain the empty symbol. -/
theorem C9_first_of_terminal_sequence :
    ∀ (g : Grammar) (s : Symbol) (rest : SymbolSequence) (fuel : Nat),
      s ∈ g.terminals → s ≠ "" → (∀ x ∈ rest, x ∈ g.terminals) →
      g.first (fuel + 1) (s :: rest) = some {s} ∧
        "" ∉ ({s} : SymbolSet) := by
  intro g s rest fuel hs hne _
  have hmem : ("" : Symbol) ∉ ({s} : SymbolSet) := by
    rw [Finset.mem_singleton]
    exact fun e => hne e.symm
  refine ⟨?_, hmem⟩
  show firstSeq (firstSingle g (fuel + 1)) (s :: rest) ∅ = some {s}
  have hsingle : firstSingle g (fuel + 1) s = some {s} := by
    show (if s = "" ∨ s ∈ g.terminals then some {s}
      else firstRules (firstSingle g fuel) s g.rules ∅) = some {s}
    rw [if_pos (Or.inr hs)]
  simp [firstSeq, hsingle, hmem, Finset.erase_eq_self]

/-- Witness for C9: the all-terminal sequence [a, b] on the grammar of
scenario 2. -/
theorem C9_first_of_terminal_sequence_witness :
    ("a" ∈ gLR.terminals ∧ ("a" : Symbol) ≠ "" ∧
      (∀ x ∈ (["b"] : SymbolSequence), x ∈ gLR.terminals)) ∧
    gLR.first 1 ["a", "b"] = some {"a"} ∧ "" ∉ ({"a"} : SymbolSet) :=
  ⟨⟨by decide, by decide, by decide⟩,
    C9_first_of_terminal_sequence gLR "a" ["b"] 0 (by decide) (by decide)
      (by decide)⟩

/-- C10: whenever `first` or `follow` returns, every element of the
result is a declared terminal of the grammar or the empty symbol — never
a non-terminal or an undeclared non-empty symbol. -/
theorem C10_results_are_terminals_or_empty :
    ∀ (g : Grammar) (fuel : Nat),
      (∀ (seq : SymbolSequence) (s : SymbolSet),
          g.first fuel seq = some s →
          ∀ x ∈ s, x ∈ g.terminals ∨ x = "") ∧
      (∀ (nt : Symbol) (s : SymbolSet),
          g.follow fuel nt = some s →
          ∀ x ∈ s, x ∈ g.terminals ∨ x = "") :=
  fun g fuel =>
    ⟨fun seq s h => first_sane g fuel seq s h,
      fun nt s h => follow_sane g fuel nt s h⟩

/-- Witness for C10: the computed `first(["S"]) = {a, b}` on the
scenario 1 grammar, whose element `a` is a declared terminal. -/
theorem C10_results_are_terminals_or_empty_witness :
    g1.first 3 ["S"] = some (insert "a" {"b"}) ∧
    ("a" ∈ g1.terminals ∨ ("a" : Symbol) = "") :=
  ⟨by decide,
    (C10_results_are_terminals_or_empty g1 3).1 ["S"] (insert "a" {"b"})
      (by decide) "a" (by decide)⟩

end FormalLang
